import Mathlib

/-!
Verification of the MCTS engine (monte_carlo_tree_search.py) and the
tic-tac-toe domain (tictactoe.py).

Modelling conventions, matching the source:
* Python floats are modelled as rationals; every numeric value the engine
  actually produces (rewards 0, 0.5, 1 and sums and differences of these)
  is exact in this type.
* The dictionaries Q, N (defaultdict(int)) are total functions with default
  0; the children dict is a partial map, absence meaning the key is missing.
* Python sets are modelled as lists carrying the iteration order; set.pop
  takes the head, and max(xs, key=k) keeps the first element attaining the
  maximal key, exactly as CPython does.
* The randomness of find_random_child and the float functions math.log and
  math.sqrt are oracle parameters fixed in advance, so every run of the
  engine is a deterministic function of those oracles.
* The unbounded while loops of _select and _simulate take a fuel argument;
  exhausted fuel and the runtime errors of the source are Except errors.
-/



/-- Pointwise update of a total map, modelling a Python dict write. -/
def upd {S : Type} {α : Type} [DecidableEq S] (f : S → α) (a : S) (v : α) : S → α :=
  fun x => if x = a then v else f x

/-- Python max(xs, key=key): the first element attaining the maximal key,
none on the empty list (where CPython raises ValueError). -/
def pyMax {α : Type} {β : Type} [LinearOrder β] (key : α → β) : List α → Option α
  | [] => none
  | x :: xs => some (xs.foldl (fun best y => if key best < key y then y else best) x)

/-- The Node capability contract of monte_carlo_tree_search.py.
find_children returns the successor set in its iteration order,
find_random_child is the randomness oracle fixed in advance, is_terminal
and reward are as in the source (reward total here; the tic-tac-toe
implementation with its own error cases is modelled separately below). -/
structure Game (S : Type) where
  find_children : S → List S
  find_random_child : S → Option S
  is_terminal : S → Bool
  reward : S → ℚ

/-- Oracle abstracting the float functions math.log and math.sqrt used by
_uct_select; the claims about the engine hold for every such oracle. -/
structure NumOracle where
  qlog : ℚ → ℚ
  qsqrt : ℚ → ℚ

/-- The mutable state of the MCTS class: total reward Q, visit count N
(both defaultdict(int)), the children dict, and the exploration weight. -/
structure MCTS (S : Type) where
  Q : S → ℚ
  N : S → ℕ
  children : S → Option (List S)
  exploration_weight : ℚ

/-- MCTS.__init__: empty statistics, empty children dict. -/
def MCTS.init {S : Type} (c : ℚ) : MCTS S :=
  { Q := fun _ => 0, N := fun _ => 0, children := fun _ => none, exploration_weight := c }

/-- Failure modes of the engine loops: a raised assertion, math.log on 0,
a zero division in the uct score, max() on an empty sequence, exhausted
loop fuel, an empty selection path, and a failed simulation. -/
inductive EngErr where
  | assertFail
  | logDomain
  | divByZero
  | maxEmpty
  | fuelOut
  | emptyPath
  | simFail
  deriving DecidableEq

/-- The score function local to MCTS.choose: negative infinity on an
unvisited node, average reward otherwise. -/
def score {S : Type} (m : MCTS S) (n : S) : WithBot ℚ :=
  if m.N n = 0 then (⊥ : WithBot ℚ) else ((m.Q n / (m.N n : ℚ) : ℚ) : WithBot ℚ)

/-- MCTS.choose: error on a terminal node, fall back to find_random_child
when the node is not a key of the children dict, otherwise the registered
child maximizing the average-reward score. The source performs no writes,
so the result is a value, not a new engine state. -/
def choose {S : Type} [DecidableEq S] (g : Game S) (m : MCTS S) (node : S) :
    Except String (Option S) :=
  if g.is_terminal node then .error "choose called on terminal node"
  else
    match m.children node with
    | none => .ok (g.find_random_child node)
    | some cs =>
      match pyMax (score m) cs with
      | none => .error "max arg is an empty sequence"
      | some c => .ok (some c)

/-- MCTS._expand: a no-op when the node is already a key of the children
dict, otherwise register find_children. -/
def _expand {S : Type} [DecidableEq S] (g : Game S) (m : MCTS S) (node : S) : MCTS S :=
  match m.children node with
  | some _ => m
  | none => { m with children := upd m.children node (some (g.find_children node)) }

/-- Loop body of MCTS._simulate with fuel; the Boolean is invert_reward.
none models both exhausted fuel and the ValueError raised when
find_random_child returns None. -/
def simulateAux {S : Type} (g : Game S) : ℕ → Bool → S → Option ℚ
  | 0, _, _ => none
  | fuel + 1, invert, s =>
    if g.is_terminal s then some (if invert then 1 - g.reward s else g.reward s)
    else
      match g.find_random_child s with
      | none => none
      | some s2 => simulateAux g fuel (!invert) s2

/-- MCTS._simulate: the loop starts with invert_reward = True. -/
def _simulate {S : Type} (g : Game S) (fuel : ℕ) (s : S) : Option ℚ :=
  simulateAux g fuel true s

/-- Number of find_random_child advances from a state to the first terminal
state of the random walk, together with that terminal state. -/
def stepsToTerminal {S : Type} (g : Game S) : ℕ → S → Option (ℕ × S)
  | 0, s => if g.is_terminal s then some (0, s) else none
  | fuel + 1, s =>
    if g.is_terminal s then some (0, s)
    else
      match g.find_random_child s with
      | none => none
      | some s2 => (stepsToTerminal g fuel s2).map (fun p => (p.1 + 1, p.2))

/-- Loop body of MCTS._backpropagate, consuming the already reversed path:
one visit with the current reward at each node, then flip the reward. -/
def backpropAux {S : Type} [DecidableEq S] : MCTS S → List S → ℚ → MCTS S
  | m, [], _ => m
  | m, n :: rest, r =>
    backpropAux { m with N := upd m.N n (m.N n + 1), Q := upd m.Q n (m.Q n + r) } rest (1 - r)

/-- MCTS._backpropagate: walk the path in reverse. -/
def _backpropagate {S : Type} [DecidableEq S] (m : MCTS S) (path : List S) (r : ℚ) : MCTS S :=
  backpropAux m path.reverse r

/-- The total amount added to Q at a given state by backpropagating reward
r along an already reversed path; mirrors backpropAux. -/
def qDelta {S : Type} [DecidableEq S] : List S → ℚ → S → ℚ
  | [], _, _ => 0
  | n :: rest, r, s => (if s = n then r else 0) + qDelta rest (1 - r) s

/-- The reward values recorded for a state by one backpropagation of reward
r along a path, summed. -/
def recordedReward {S : Type} [DecidableEq S] (path : List S) (r : ℚ) (s : S) : ℚ :=
  qDelta path.reverse r s

/-- The uct closure of _uct_select: average reward plus the exploration
weight times sqrt of (log of the parent visit count over the child visit
count). -/
def uctScore {S : Type} (o : NumOracle) (m : MCTS S) (node n : S) : ℚ :=
  m.Q n / (m.N n : ℚ) +
    m.exploration_weight * o.qsqrt (o.qlog (m.N node : ℚ) / (m.N n : ℚ))

/-- MCTS._uct_select: assert that every registered child of the node is
itself a key of the children dict, take math.log of the parent visit count
(raising on 0), then the child maximizing the uct score (each score
dividing by the child visit count, raising on 0 while max iterates a
nonempty child list). -/
def _uct_select {S : Type} [DecidableEq S] (o : NumOracle) (m : MCTS S) (node : S) :
    Except EngErr S :=
  match m.children node with
  | none => .error .assertFail
  | some cs =>
    if cs.all (fun n => (m.children n).isSome) then
      if m.N node = 0 then .error .logDomain
      else if cs.any (fun n => m.N n = 0) then
        match cs with
        | [] => .error .maxEmpty
        | _ :: _ => .error .divByZero
      else
        match pyMax (uctScore o m node) cs with
        | none => .error .maxEmpty
        | some c => .ok c
    else .error .assertFail

/-- Loop body of MCTS._select with fuel, accumulating the path: stop on an
unexpanded or terminal node, otherwise stop at a popped unexplored child of
the node, otherwise descend through _uct_select. -/
def selectAux {S : Type} [DecidableEq S] (o : NumOracle) (m : MCTS S) :
    ℕ → S → List S → Except EngErr (List S)
  | 0, _, _ => .error .fuelOut
  | fuel + 1, node, path =>
    match m.children node with
    | none => .ok (path ++ [node])
    | some cs =>
      if cs.isEmpty then .ok (path ++ [node])
      else
        match cs.filter (fun c => (m.children c).isNone) with
        | u :: _ => .ok (path ++ [node, u])
        | [] =>
          match _uct_select o m node with
          | .ok n => selectAux o m fuel n (path ++ [node])
          | .error e => .error e

/-- MCTS._select: the descent starts with an empty path. -/
def _select {S : Type} [DecidableEq S] (o : NumOracle) (m : MCTS S) (node : S)
    (fuel : ℕ) : Except EngErr (List S) :=
  selectAux o m fuel node []

/-- MCTS.do_rollout instrumented with its internal path and simulated
reward, which the source computes but does not return: select a path,
expand its leaf, simulate from the leaf, backpropagate along the path. -/
def rolloutTrace {S : Type} [DecidableEq S] (g : Game S) (o : NumOracle) (m : MCTS S)
    (node : S) (f1 f2 : ℕ) : Except EngErr (MCTS S × List S × ℚ) :=
  match _select o m node f1 with
  | .error e => .error e
  | .ok path =>
    match path.getLast? with
    | none => .error .emptyPath
    | some leaf =>
      match _simulate g f2 leaf with
      | none => .error .simFail
      | some reward => .ok (_backpropagate (_expand g m leaf) path reward, path, reward)

/-- MCTS.do_rollout: the new engine state of one rollout. -/
def do_rollout {S : Type} [DecidableEq S] (g : Game S) (o : NumOracle) (m : MCTS S)
    (node : S) (f1 f2 : ℕ) : Except EngErr (MCTS S) :=
  (rolloutTrace g o m node f1 f2).map (fun t => t.1)

/-- A sequence of rollouts, each with its own root and fuels, returning the
final engine state and the trace (path, reward) of every rollout. -/
def runRollouts {S : Type} [DecidableEq S] (g : Game S) (o : NumOracle) :
    MCTS S → List (S × ℕ × ℕ) → Except EngErr (MCTS S × List (List S × ℚ))
  | m, [] => .ok (m, [])
  | m, (root, f1, f2) :: rest =>
    match rolloutTrace g o m root f1 f2 with
    | .error e => .error e
    | .ok (m2, path, r) =>
      match runRollouts g o m2 rest with
      | .error e => .error e
      | .ok (mf, traces) => .ok (mf, (path, r) :: traces)

/-- Engine states reachable from a fresh engine by complete (successful)
do_rollout calls, with arbitrary roots and fuels. -/
inductive Reachable {S : Type} [DecidableEq S] (g : Game S) (o : NumOracle) (c : ℚ) :
    MCTS S → Prop
  | init : Reachable g o c (MCTS.init c)
  | step {m m' : MCTS S} {root : S} {f1 f2 : ℕ} :
      Reachable g o c m → do_rollout g o m root f1 f2 = .ok m' → Reachable g o c m'

/-- Invariant: every key of the children dict has been visited at least
once. -/
def keysVisited {S : Type} (m : MCTS S) : Prop :=
  ∀ s, (m.children s).isSome → 1 ≤ m.N s

/-! ## The tic-tac-toe domain (tictactoe.py) -/

/-- The eight winning index triples, in the iteration order of
_winning_combos: the three rows, the three columns, both diagonals. -/
def winning_combos : List (ℕ × ℕ × ℕ) :=
  [(0, 1, 2), (3, 4, 5), (6, 7, 8),
   (0, 3, 6), (1, 4, 7), (2, 5, 8),
   (0, 4, 8), (2, 4, 6)]

/-- One iteration of the loop body of _find_winner: the cell values at a
combo, checking the False player first, then the True player, as in the
source. A cell is Option Bool (None, False, True) and an index lookup
yields Option (Option Bool). -/
def comboWinner (tup : List (Option Bool)) (c : ℕ × ℕ × ℕ) : Option Bool :=
  if tup[c.1]? == some (some false) && tup[c.2.1]? == some (some false) &&
      tup[c.2.2]? == some (some false) then
    some false
  else if tup[c.1]? == some (some true) && tup[c.2.1]? == some (some true) &&
      tup[c.2.2]? == some (some true) then
    some true
  else none

/-- The loop of _find_winner: first combo monochrome for a player wins. -/
def findWinnerAux (tup : List (Option Bool)) : List (ℕ × ℕ × ℕ) → Option Bool
  | [] => none
  | c :: rest =>
    match comboWinner tup c with
    | some w => some w
    | none => findWinnerAux tup rest

/-- tictactoe._find_winner. -/
def _find_winner (tup : List (Option Bool)) : Option Bool :=
  findWinnerAux tup winning_combos

/-- The TicTacToeBoard namedtuple: nine cells, the player to move, the
cached winner, the cached terminal flag. -/
structure TicTacToeBoard where
  tup : List (Option Bool)
  turn : Bool
  winner : Option Bool
  terminal : Bool
  deriving DecidableEq

/-- TicTacToeBoard.make_move: tup with the slice at index replaced by the
mover (the Python slicing tup[:index] + (turn,) + tup[index+1:], faithful
also for out-of-range indices), flipped turn, recomputed winner, terminal
iff there is a winner or no empty cell remains. The source performs no
legality check: occupied cells are overwritten and terminal boards accept
further moves. -/
def TicTacToeBoard.make_move (b : TicTacToeBoard) (index : ℕ) : TicTacToeBoard :=
  { tup := b.tup.take index ++ [some b.turn] ++ b.tup.drop (index + 1)
    turn := !b.turn
    winner := _find_winner (b.tup.take index ++ [some b.turn] ++ b.tup.drop (index + 1))
    terminal := (_find_winner (b.tup.take index ++ [some b.turn] ++ b.tup.drop (index + 1))).isSome ||
      !((b.tup.take index ++ [some b.turn] ++ b.tup.drop (index + 1)).any (fun v => v.isNone)) }

/-- Python truthiness negation of a winner value: not None and not False
are True, not True is False. -/
def pyNot : Option Bool → Bool
  | none => true
  | some b => !b

/-- TicTacToeBoard.reward, with every raise of the source as an error:
nonterminal boards and boards whose winner equals the player to move are
errors, the source then returns 0 when turn is the Python negation of
winner, 0.5 on a draw, and errors otherwise. -/
def TicTacToeBoard.reward (b : TicTacToeBoard) : Except String ℚ :=
  if !b.terminal then .error "reward called on nonterminal board"
  else if b.winner == some b.turn then .error "reward called on unreachable board"
  else if b.turn == pyNot b.winner then .ok 0
  else if b.winner == none then .ok (1 / 2)
  else .error "board has unknown winner type"

/-- tictactoe.new_tic_tac_toe_board: nine empty cells, True to move. -/
def new_tic_tac_toe_board : TicTacToeBoard :=
  { tup := List.replicate 9 none, turn := true, winner := none, terminal := false }

/-- Boards reachable by legal game moves: each move is made on a
non-terminal board at an index holding an empty cell, exactly the moves
find_children and find_random_child generate. -/
inductive LegalReachable : TicTacToeBoard → Prop
  | init : LegalReachable new_tic_tac_toe_board
  | move {b : TicTacToeBoard} {i : ℕ} : LegalReachable b → b.terminal = false →
      b.tup[i]? = some none → LegalReachable (b.make_move i)

/-- The structural invariant of reachable boards: nine cells, cached
winner and terminal fields consistent with tup, the player to move
determined by the parity of the empty cells, and the winner never the
player to move. -/
def BoardInv (b : TicTacToeBoard) : Prop :=
  b.tup.length = 9 ∧
  b.winner = _find_winner b.tup ∧
  b.terminal = (b.winner.isSome || !(b.tup.any (fun v => v.isNone))) ∧
  (b.turn = true ↔ b.tup.countP (fun v => v.isNone) % 2 = 1) ∧
  (∀ w, b.winner = some w → b.turn = !w)

/-- An unrestricted make_move sequence that fills the board into a draw
position using ten moves, one of them overwriting an occupied cell, so
that the player to move on the full board is True. -/
def overwriteMoves : List ℕ := [0, 5, 1, 2, 6, 3, 7, 4, 5, 8]

/-- The terminal draw board with turn True produced by overwriteMoves. -/
def drawTurnTrueBoard : TicTacToeBoard :=
  overwriteMoves.foldl TicTacToeBoard.make_move new_tic_tac_toe_board

/-- A board reached by five legal moves in which the first player has
completed the top row and won. -/
def winBoard : TicTacToeBoard :=
  ((((new_tic_tac_toe_board.make_move 0).make_move 3).make_move 1).make_move 4).make_move 2

/-! ## Concrete witness structures -/

/-- A three-state game used to exercise the engine on concrete inputs: a
root with two terminal children carrying rewards 1 and 0. -/
inductive WS where
  | root
  | a
  | b
  deriving DecidableEq, Fintype

/-- The witness game over WS. -/
def wg : Game WS where
  find_children := fun s => match s with | .root => [.a, .b] | .a => [] | .b => []
  find_random_child := fun s => match s with | .root => some .a | .a => none | .b => none
  is_terminal := fun s => match s with | .root => false | .a => true | .b => true
  reward := fun s => match s with | .root => 0 | .a => 1 | .b => 0

/-- A trivial numeric oracle for the witness runs. -/
def wo : NumOracle where
  qlog := fun _ => 0
  qsqrt := fun _ => 0

/-- Extract the value of a successful engine computation. -/
def okOr {α : Type} (e : Except EngErr α) (d : α) : α :=
  match e with
  | .ok a => a
  | .error _ => d

/-- The fresh witness engine. -/
def wm0 : MCTS WS := MCTS.init 1

/-- The witness engine after one rollout at the root. -/
def wm1 : MCTS WS := okOr (do_rollout wg wo wm0 .root 9 9) wm0

/-- The witness engine after two rollouts at the root. -/
def wm2 : MCTS WS := okOr (do_rollout wg wo wm1 .root 9 9) wm1

/-- The witness engine after three rollouts at the root. -/
def wm3 : MCTS WS := okOr (do_rollout wg wo wm2 .root 9 9) wm2

/-- The rollout sequence of the witness runs: three rollouts at the root
with fuel 9 for both loops. -/
def wseq : List (WS × ℕ × ℕ) := [(.root, 9, 9), (.root, 9, 9), (.root, 9, 9)]

/-- The traced witness run. -/
def wrun : Except EngErr (MCTS WS × List (List WS × ℚ)) := runRollouts wg wo wm0 wseq

/-- Final engine state of the traced witness run. -/
def wmf : MCTS WS := (okOr wrun (wm0, [])).1

/-- The per-rollout traces of the witness run. -/
def wtraces : List (List WS × ℚ) := (okOr wrun (wm0, [])).2

/-- A three-state chain game whose selection descends through uct once
both interior nodes are expanded, yielding a selection path of length
three. -/
inductive WC where
  | r0
  | mid
  | leaf
  deriving DecidableEq

/-- The chain witness game over WC. -/
def wcg : Game WC where
  find_children := fun s => match s with | .r0 => [.mid] | .mid => [.leaf] | .leaf => []
  find_random_child := fun s => match s with | .r0 => some .mid | .mid => some .leaf | .leaf => none
  is_terminal := fun s => match s with | .r0 => false | .mid => false | .leaf => true
  reward := fun s => match s with | .leaf => 1 | _ => 0

/-- The fresh chain witness engine. -/
def wc0 : MCTS WC := MCTS.init 1

/-- The chain witness engine after one rollout at the chain root. -/
def wc1 : MCTS WC := okOr (do_rollout wcg wo wc0 .r0 9 9) wc0

/-- The chain witness engine after two rollouts at the chain root. -/
def wc2 : MCTS WC := okOr (do_rollout wcg wo wc1 .r0 9 9) wc1

/-! ## Helper lemmas: updates, backpropagation, expansion, pyMax -/

theorem upd_eval {S : Type} {α : Type} [DecidableEq S] (f : S → α) (a : S) (v : α) (x : S) :
    upd f a v x = if x = a then v else f x := rfl

theorem backpropAux_children {S : Type} [DecidableEq S] (l : List S) :
    ∀ (m : MCTS S) (r : ℚ), (backpropAux m l r).children = m.children := by
  induction l with
  | nil => intro m r; rfl
  | cons n rest ih => intro m r; rw [backpropAux, ih]

theorem backpropAux_N {S : Type} [DecidableEq S] (l : List S) :
    ∀ (m : MCTS S) (r : ℚ) (s : S), (backpropAux m l r).N s = m.N s + l.count s := by
  induction l with
  | nil => intro m r s; simp [backpropAux]
  | cons n rest ih =>
    intro m r s
    rw [backpropAux, ih]
    simp only [upd_eval]
    by_cases h : s = n
    · subst h
      rw [List.count_cons_self, if_pos rfl]
      omega
    · rw [List.count_cons_of_ne h, if_neg h]

theorem backpropAux_Q {S : Type} [DecidableEq S] (l : List S) :
    ∀ (m : MCTS S) (r : ℚ) (s : S), (backpropAux m l r).Q s = m.Q s + qDelta l r s := by
  induction l with
  | nil => intro m r s; simp [backpropAux, qDelta]
  | cons n rest ih =>
    intro m r s
    rw [backpropAux, ih, qDelta]
    simp only [upd_eval]
    by_cases h : s = n
    · subst h; rw [if_pos rfl, if_pos rfl]; ring
    · rw [if_neg h, if_neg h]; ring

theorem backprop_children {S : Type} [DecidableEq S] (m : MCTS S) (path : List S) (r : ℚ) :
    (_backpropagate m path r).children = m.children :=
  backpropAux_children path.reverse m r

theorem backprop_N {S : Type} [DecidableEq S] (m : MCTS S) (path : List S) (r : ℚ) (s : S) :
    (_backpropagate m path r).N s = m.N s + path.count s := by
  rw [_backpropagate, backpropAux_N, List.count_reverse]

theorem backprop_Q {S : Type} [DecidableEq S] (m : MCTS S) (path : List S) (r : ℚ) (s : S) :
    (_backpropagate m path r).Q s = m.Q s + recordedReward path r s :=
  backpropAux_Q path.reverse m r s

theorem qDelta_of_not_mem {S : Type} [DecidableEq S] (l : List S) :
    ∀ (r : ℚ) (s : S), s ∉ l → qDelta l r s = 0 := by
  induction l with
  | nil => intro r s _; rfl
  | cons n rest ih =>
    intro r s hs
    rw [qDelta, ih _ _ (fun hm => hs (List.mem_cons_of_mem _ hm))]
    have hne : s ≠ n := fun he => hs (he ▸ List.mem_cons_self _ _)
    rw [if_neg hne]
    ring

theorem qDelta_get {S : Type} [DecidableEq S] (l : List S) :
    ∀ (r : ℚ) (j : ℕ) (hj : j < l.length), l.Nodup →
      qDelta l r (l.get ⟨j, hj⟩) = if j % 2 = 0 then r else 1 - r := by
  induction l with
  | nil => intro r j hj _; exact absurd hj (by simp)
  | cons n rest ih =>
    intro r j hj hnd
    have hnmem : n ∉ rest := (List.nodup_cons.mp hnd).1
    have hndr : rest.Nodup := (List.nodup_cons.mp hnd).2
    match j with
    | 0 =>
      show (if n = n then r else 0) + qDelta rest (1 - r) n = if 0 % 2 = 0 then r else 1 - r
      rw [qDelta_of_not_mem rest _ _ hnmem, if_pos rfl]
      simp
    | j' + 1 =>
      have hj' : j' < rest.length := by simpa using hj
      have hget : (n :: rest).get ⟨j' + 1, hj⟩ = rest.get ⟨j', hj'⟩ := rfl
      rw [hget, qDelta]
      have hne : rest.get ⟨j', hj'⟩ ≠ n := fun he => hnmem (he ▸ rest.get_mem _ _)
      rw [if_neg hne, ih (1 - r) j' hj' hndr]
      by_cases hpar : j' % 2 = 0
      · have h2 : ¬ (j' + 1) % 2 = 0 := by omega
        rw [if_pos hpar, if_neg h2]
        ring
      · have h2 : (j' + 1) % 2 = 0 := by omega
        rw [if_neg hpar, if_pos h2]
        ring

theorem qDelta_bounds {S : Type} [DecidableEq S] (l : List S) :
    ∀ (r : ℚ) (s : S), 0 ≤ r → r ≤ 1 →
      0 ≤ qDelta l r s ∧ qDelta l r s ≤ (l.count s : ℚ) := by
  induction l with
  | nil => intro r s h0 h1; simp [qDelta]
  | cons n rest ih =>
    intro r s h0 h1
    have ihr := ih (1 - r) s (by linarith) (by linarith)
    rw [qDelta]
    by_cases h : s = n
    · subst h
      rw [List.count_cons_self, if_pos rfl]
      push_cast
      exact ⟨by linarith [ihr.1], by linarith [ihr.2]⟩
    · rw [List.count_cons_of_ne h, if_neg h]
      exact ⟨by linarith [ihr.1], by linarith [ihr.2]⟩

theorem _expand_N {S : Type} [DecidableEq S] (g : Game S) (m : MCTS S) (node s : S) :
    (_expand g m node).N s = m.N s := by
  rw [_expand]; cases m.children node <;> rfl

theorem _expand_Q {S : Type} [DecidableEq S] (g : Game S) (m : MCTS S) (node s : S) :
    (_expand g m node).Q s = m.Q s := by
  rw [_expand]; cases m.children node <;> rfl

theorem _expand_children_isSome {S : Type} [DecidableEq S] (g : Game S) (m : MCTS S)
    (node s : S) (h : ((_expand g m node).children s).isSome = true) :
    (m.children s).isSome = true ∨ s = node := by
  rw [_expand] at h
  cases hc : m.children node with
  | some cs => rw [hc] at h; exact Or.inl h
  | none =>
    rw [hc] at h
    simp only [upd_eval] at h
    by_cases he : s = node
    · exact Or.inr he
    · rw [if_neg he] at h; exact Or.inl h

theorem pyFold_mem {α : Type} {β : Type} [LinearOrder β] (key : α → β) :
    ∀ (xs : List α) (b : α),
      xs.foldl (fun best y => if key best < key y then y else best) b ∈ b :: xs := by
  intro xs
  induction xs with
  | nil => intro b; simp [List.foldl]
  | cons y ys ih =>
    intro b
    rw [List.foldl]
    by_cases hk : key b < key y
    · rw [if_pos hk]
      rcases List.mem_cons.mp (ih y) with h | h
      · rw [h]; simp
      · exact List.mem_cons.mpr (Or.inr (List.mem_cons.mpr (Or.inr h)))
    · rw [if_neg hk]
      rcases List.mem_cons.mp (ih b) with h | h
      · rw [h]; simp
      · exact List.mem_cons.mpr (Or.inr (List.mem_cons.mpr (Or.inr h)))

theorem pyFold_le {α : Type} {β : Type} [LinearOrder β] (key : α → β) :
    ∀ (xs : List α) (b : α) (d : α), d ∈ b :: xs →
      key d ≤ key (xs.foldl (fun best y => if key best < key y then y else best) b) := by
  intro xs
  induction xs with
  | nil =>
    intro b d hd
    rcases List.mem_cons.mp hd with h | h
    · subst h; exact le_refl _
    · simp at h
  | cons y ys ih =>
    intro b d hd
    rw [List.foldl]
    by_cases hk : key b < key y
    · rw [if_pos hk]
      rcases List.mem_cons.mp hd with h | h
      · subst h
        exact le_trans (le_of_lt hk) (ih y y (List.mem_cons_self _ _))
      · rcases List.mem_cons.mp h with h2 | h2
        · subst h2
          exact ih _ _ (List.mem_cons_self _ _)
        · exact ih y d (List.mem_cons_of_mem _ h2)
    · rw [if_neg hk]
      rcases List.mem_cons.mp hd with h | h
      · subst h
        exact ih _ _ (List.mem_cons_self _ _)
      · rcases List.mem_cons.mp h with h2 | h2
        · subst h2
          exact le_trans (le_of_not_lt hk) (ih b b (List.mem_cons_self _ _))
        · exact ih b d (List.mem_cons_of_mem _ h2)

theorem pyMax_mem {α : Type} {β : Type} [LinearOrder β] (key : α → β) (l : List α) (c : α)
    (h : pyMax key l = some c) : c ∈ l := by
  cases l with
  | nil => simp [pyMax] at h
  | cons x xs =>
    rw [pyMax, Option.some.injEq] at h
    exact h ▸ pyFold_mem key xs x

theorem pyMax_le {α : Type} {β : Type} [LinearOrder β] (key : α → β) (l : List α) (c : α)
    (h : pyMax key l = some c) : ∀ d ∈ l, key d ≤ key c := by
  cases l with
  | nil => simp [pyMax] at h
  | cons x xs =>
    rw [pyMax, Option.some.injEq] at h
    intro d hd
    exact h ▸ pyFold_le key xs x d hd

/-! ## Simulation lemmas -/

theorem simulateAux_terminal {S : Type} (g : Game S) (fuel : ℕ) (invert : Bool) (s : S)
    (ht : g.is_terminal s = true) :
    simulateAux g (fuel + 1) invert s =
      some (if invert then 1 - g.reward s else g.reward s) := by
  simp [simulateAux, ht]

theorem simulateAux_nonterminal {S : Type} (g : Game S) (fuel : ℕ) (invert : Bool) (s s2 : S)
    (ht : g.is_terminal s = false) (hc : g.find_random_child s = some s2) :
    simulateAux g (fuel + 1) invert s = simulateAux g fuel (!invert) s2 := by
  simp [simulateAux, ht, hc]

theorem stepsToTerminal_terminal {S : Type} (g : Game S) (fuel : ℕ) (s : S)
    (ht : g.is_terminal s = true) : stepsToTerminal g fuel s = some (0, s) := by
  cases fuel <;> simp [stepsToTerminal, ht]

theorem stepsToTerminal_nonterminal {S : Type} (g : Game S) (fuel : ℕ) (s s2 : S)
    (ht : g.is_terminal s = false) (hc : g.find_random_child s = some s2) :
    stepsToTerminal g (fuel + 1) s =
      (stepsToTerminal g fuel s2).map (fun p => (p.1 + 1, p.2)) := by
  simp [stepsToTerminal, ht, hc]

theorem stepsToTerminal_zero_nonterminal {S : Type} (g : Game S) (s : S)
    (ht : g.is_terminal s = false) : stepsToTerminal g 0 s = none := by
  simp [stepsToTerminal, ht]

theorem stepsToTerminal_stuck {S : Type} (g : Game S) (fuel : ℕ) (s : S)
    (ht : g.is_terminal s = false) (hc : g.find_random_child s = none) :
    stepsToTerminal g (fuel + 1) s = none := by
  simp [stepsToTerminal, ht, hc]

theorem simulateAux_steps {S : Type} (g : Game S) :
    ∀ (fuel : ℕ) (s : S) (k : ℕ) (t : S), stepsToTerminal g fuel s = some (k, t) →
      ∀ invert : Bool, simulateAux g (fuel + 1) invert s =
        some (if (k % 2 == 0) == invert then 1 - g.reward t else g.reward t) := by
  intro fuel
  induction fuel with
  | zero =>
    intro s k t h invert
    cases ht : g.is_terminal s with
    | false => rw [stepsToTerminal_zero_nonterminal g s ht] at h; cases h
    | true =>
      rw [stepsToTerminal_terminal g 0 s ht] at h
      simp at h
      obtain ⟨hk, hts⟩ := h
      subst hk; subst hts
      rw [simulateAux_terminal g 0 invert s ht]
      cases invert <;> rfl
  | succ f ih =>
    intro s k t h invert
    cases ht : g.is_terminal s with
    | true =>
      rw [stepsToTerminal_terminal g (f + 1) s ht] at h
      simp at h
      obtain ⟨hk, hts⟩ := h
      subst hk; subst hts
      rw [simulateAux_terminal g (f + 1) invert s ht]
      cases invert <;> rfl
    | false =>
      cases hc : g.find_random_child s with
      | none =>
        rw [stepsToTerminal_stuck g f s ht hc] at h
        cases h
      | some s2 =>
        rw [stepsToTerminal_nonterminal g f s s2 ht hc] at h
        cases hs : stepsToTerminal g f s2 with
        | none => rw [hs] at h; cases h
        | some p =>
          rw [hs] at h
          simp at h
          obtain ⟨hk, ht2⟩ := h
          rw [simulateAux_nonterminal g (f + 1) invert s s2 ht hc,
            ih s2 p.1 p.2 (by rw [hs]) (!invert)]
          subst hk; subst ht2
          have hb : (((p.1 + 1) % 2 == 0) == invert) = ((p.1 % 2 == 0) == !invert) := by
            by_cases hp : p.1 % 2 = 0
            · have h2 : (p.1 + 1) % 2 = 1 := by omega
              rw [hp, h2]
              cases invert <;> rfl
            · have hp1 : p.1 % 2 = 1 := by omega
              have h2 : (p.1 + 1) % 2 = 0 := by omega
              rw [hp1, h2]
              cases invert <;> rfl
          rw [hb]

theorem simulateAux_bounds {S : Type} (g : Game S)
    (HR : ∀ s, g.is_terminal s = true → 0 ≤ g.reward s ∧ g.reward s ≤ 1) :
    ∀ (fuel : ℕ) (invert : Bool) (s : S) (r : ℚ),
      simulateAux g fuel invert s = some r → 0 ≤ r ∧ r ≤ 1 := by
  intro fuel
  induction fuel with
  | zero => intro invert s r h; rw [simulateAux] at h; cases h
  | succ f ih =>
    intro invert s r h
    cases ht : g.is_terminal s with
    | true =>
      rw [simulateAux_terminal g f invert s ht] at h
      simp at h
      obtain ⟨h0, h1⟩ := HR s ht
      cases invert with
      | true => simp at h; constructor <;> linarith [h]
      | false => simp at h; constructor <;> linarith [h]
    | false =>
      cases hc : g.find_random_child s with
      | none =>
        rw [simulateAux, ht] at h
        simp only [Bool.false_eq_true, if_false, hc] at h
        cases h
      | some s2 =>
        rw [simulateAux_nonterminal g f invert s s2 ht hc] at h
        exact ih _ _ _ h

/-! ## Selection and uct lemmas -/

theorem selectAux_zero {S : Type} [DecidableEq S] (o : NumOracle) (m : MCTS S) (node : S)
    (acc : List S) : selectAux o m 0 node acc = .error .fuelOut := rfl

theorem selectAux_unexpanded {S : Type} [DecidableEq S] (o : NumOracle) (m : MCTS S)
    (fuel : ℕ) (node : S) (acc : List S) (hc : m.children node = none) :
    selectAux o m (fuel + 1) node acc = .ok (acc ++ [node]) := by
  simp [selectAux, hc]

theorem selectAux_terminal {S : Type} [DecidableEq S] (o : NumOracle) (m : MCTS S)
    (fuel : ℕ) (node : S) (acc : List S) (cs : List S) (hc : m.children node = some cs)
    (he : cs.isEmpty = true) :
    selectAux o m (fuel + 1) node acc = .ok (acc ++ [node]) := by
  simp [selectAux, hc, he]

theorem selectAux_frontier {S : Type} [DecidableEq S] (o : NumOracle) (m : MCTS S)
    (fuel : ℕ) (node : S) (acc : List S) (cs : List S) (u : S) (rest : List S)
    (hc : m.children node = some cs) (he : cs.isEmpty = false)
    (hf : cs.filter (fun c => (m.children c).isNone) = u :: rest) :
    selectAux o m (fuel + 1) node acc = .ok (acc ++ [node, u]) := by
  simp [selectAux, hc, he, hf]

theorem selectAux_uct_ok {S : Type} [DecidableEq S] (o : NumOracle) (m : MCTS S)
    (fuel : ℕ) (node : S) (acc : List S) (cs : List S) (n : S)
    (hc : m.children node = some cs) (he : cs.isEmpty = false)
    (hf : cs.filter (fun c => (m.children c).isNone) = [])
    (hu : _uct_select o m node = .ok n) :
    selectAux o m (fuel + 1) node acc = selectAux o m fuel n (acc ++ [node]) := by
  simp [selectAux, hc, he, hf, hu]

theorem selectAux_uct_err {S : Type} [DecidableEq S] (o : NumOracle) (m : MCTS S)
    (fuel : ℕ) (node : S) (acc : List S) (cs : List S) (e : EngErr)
    (hc : m.children node = some cs) (he : cs.isEmpty = false)
    (hf : cs.filter (fun c => (m.children c).isNone) = [])
    (hu : _uct_select o m node = .error e) :
    selectAux o m (fuel + 1) node acc = .error e := by
  simp [selectAux, hc, he, hf, hu]

theorem all_isSome_of_filter_isNone_nil {S : Type} [DecidableEq S] (m : MCTS S) (cs : List S)
    (h : cs.filter (fun c => (m.children c).isNone) = []) :
    cs.all (fun n => (m.children n).isSome) = true := by
  rw [List.all_eq_true]
  intro n hn
  have h2 := List.filter_eq_nil_iff.mp h n hn
  have h3 : ¬ m.children n = none := fun hn2 => h2 (by rw [hn2]; rfl)
  cases hcc : m.children n with
  | none => exact absurd hcc h3
  | some cs2 => rfl

theorem uct_err_of_all {S : Type} [DecidableEq S] (o : NumOracle) (m : MCTS S) (node : S)
    (cs : List S) (hc : m.children node = some cs)
    (hall : cs.all (fun n => (m.children n).isSome) = true) (e : EngErr)
    (he : _uct_select o m node = .error e) :
    e = .logDomain ∨ e = .divByZero ∨ e = .maxEmpty := by
  simp only [_uct_select, hc] at he
  rw [if_pos hall] at he
  by_cases hN : m.N node = 0
  · rw [if_pos hN] at he
    exact Or.inl (Except.error.inj he).symm
  · rw [if_neg hN] at he
    by_cases hz : cs.any (fun n => m.N n = 0) = true
    · rw [if_pos hz] at he
      cases cs with
      | nil => simp at hz
      | cons c cs2 => exact Or.inr (Or.inl (Except.error.inj he).symm)
    · rw [if_neg hz] at he
      cases hm : pyMax (uctScore o m node) cs with
      | none => rw [hm] at he; exact Or.inr (Or.inr (Except.error.inj he).symm)
      | some c => rw [hm] at he; cases he

theorem uct_errors_with_visits {S : Type} [DecidableEq S] (o : NumOracle) (m : MCTS S)
    (node : S) (cs : List S) (hc : m.children node = some cs)
    (hall : cs.all (fun n => (m.children n).isSome) = true)
    (hN : 1 ≤ m.N node) (hchild : ∀ n ∈ cs, 1 ≤ m.N n) (e : EngErr)
    (he : _uct_select o m node = .error e) : e = .maxEmpty := by
  simp only [_uct_select, hc] at he
  rw [if_pos hall] at he
  have hN0 : ¬ m.N node = 0 := by omega
  rw [if_neg hN0] at he
  have hz : ¬ cs.any (fun n => m.N n = 0) = true := by
    rw [List.any_eq_true]
    rintro ⟨n, hn, hzero⟩
    have := hchild n hn
    simp at hzero
    omega
  rw [if_neg hz] at he
  cases hm : pyMax (uctScore o m node) cs with
  | none => rw [hm] at he; exact (Except.error.inj he).symm
  | some c => rw [hm] at he; cases he

theorem selectAux_no_assert {S : Type} [DecidableEq S] (o : NumOracle) (m : MCTS S) :
    ∀ (fuel : ℕ) (node : S) (acc : List S),
      selectAux o m fuel node acc ≠ .error .assertFail := by
  intro fuel
  induction fuel with
  | zero => intro node acc h; rw [selectAux_zero] at h; cases h
  | succ f ih =>
    intro node acc h
    cases hc : m.children node with
    | none => rw [selectAux_unexpanded o m f node acc hc] at h; cases h
    | some cs =>
      cases he : cs.isEmpty with
      | true => rw [selectAux_terminal o m f node acc cs hc he] at h; cases h
      | false =>
        cases hf : cs.filter (fun c => (m.children c).isNone) with
        | cons u rest => rw [selectAux_frontier o m f node acc cs u rest hc he hf] at h; cases h
        | nil =>
          have hall := all_isSome_of_filter_isNone_nil m cs hf
          cases hu : _uct_select o m node with
          | ok n =>
            rw [selectAux_uct_ok o m f node acc cs n hc he hf hu] at h
            exact ih n (acc ++ [node]) h
          | error e =>
            rw [selectAux_uct_err o m f node acc cs e hc he hf hu] at h
            have he2 : e = .assertFail := Except.error.inj h
            subst he2
            rcases uct_err_of_all o m node cs hc hall _ hu with h1 | h1 | h1 <;> cases h1

/-! ## Determinism and duplicate freedom of selection paths -/

theorem selectAux_shift {S : Type} [DecidableEq S] (o : NumOracle) (m : MCTS S) :
    ∀ (fuel : ℕ) (node : S) (acc path : List S),
      selectAux o m fuel node acc = .ok path →
      ∃ tail, path = acc ++ tail ∧
        ∀ acc2, selectAux o m fuel node acc2 = .ok (acc2 ++ tail) := by
  intro fuel
  induction fuel with
  | zero => intro node acc path h; rw [selectAux_zero] at h; cases h
  | succ f ih =>
    intro node acc path h
    cases hc : m.children node with
    | none =>
      rw [selectAux_unexpanded o m f node acc hc] at h
      exact ⟨[node], (Except.ok.inj h).symm,
        fun acc2 => selectAux_unexpanded o m f node acc2 hc⟩
    | some cs =>
      cases he : cs.isEmpty with
      | true =>
        rw [selectAux_terminal o m f node acc cs hc he] at h
        exact ⟨[node], (Except.ok.inj h).symm,
          fun acc2 => selectAux_terminal o m f node acc2 cs hc he⟩
      | false =>
        cases hf : cs.filter (fun c => (m.children c).isNone) with
        | cons u rest =>
          rw [selectAux_frontier o m f node acc cs u rest hc he hf] at h
          exact ⟨[node, u], (Except.ok.inj h).symm,
            fun acc2 => selectAux_frontier o m f node acc2 cs u rest hc he hf⟩
        | nil =>
          cases hu : _uct_select o m node with
          | error e =>
            rw [selectAux_uct_err o m f node acc cs e hc he hf hu] at h
            cases h
          | ok n =>
            rw [selectAux_uct_ok o m f node acc cs n hc he hf hu] at h
            obtain ⟨tail, hp, hgen⟩ := ih n (acc ++ [node]) path h
            refine ⟨node :: tail, ?_, ?_⟩
            · rw [hp, List.append_assoc]
              rfl
            · intro acc2
              rw [selectAux_uct_ok o m f node acc2 cs n hc he hf hu, hgen (acc2 ++ [node]),
                List.append_assoc]
              rfl

theorem selectAux_fuel_succ {S : Type} [DecidableEq S] (o : NumOracle) (m : MCTS S) :
    ∀ (fuel : ℕ) (node : S) (acc path : List S),
      selectAux o m fuel node acc = .ok path →
      selectAux o m (fuel + 1) node acc = .ok path := by
  intro fuel
  induction fuel with
  | zero => intro node acc path h; rw [selectAux_zero] at h; cases h
  | succ f ih =>
    intro node acc path h
    cases hc : m.children node with
    | none =>
      rw [selectAux_unexpanded o m f node acc hc] at h
      rw [selectAux_unexpanded o m (f + 1) node acc hc]
      exact h
    | some cs =>
      cases he : cs.isEmpty with
      | true =>
        rw [selectAux_terminal o m f node acc cs hc he] at h
        rw [selectAux_terminal o m (f + 1) node acc cs hc he]
        exact h
      | false =>
        cases hf : cs.filter (fun c => (m.children c).isNone) with
        | cons u rest =>
          rw [selectAux_frontier o m f node acc cs u rest hc he hf] at h
          rw [selectAux_frontier o m (f + 1) node acc cs u rest hc he hf]
          exact h
        | nil =>
          cases hu : _uct_select o m node with
          | error e =>
            rw [selectAux_uct_err o m f node acc cs e hc he hf hu] at h
            cases h
          | ok n =>
            rw [selectAux_uct_ok o m f node acc cs n hc he hf hu] at h
            rw [selectAux_uct_ok o m (f + 1) node acc cs n hc he hf hu]
            exact ih n (acc ++ [node]) path h

theorem selectAux_fuel_mono {S : Type} [DecidableEq S] (o : NumOracle) (m : MCTS S)
    (f1 f2 : ℕ) (hle : f1 ≤ f2) (node : S) (acc path : List S)
    (h : selectAux o m f1 node acc = .ok path) :
    selectAux o m f2 node acc = .ok path := by
  induction hle with
  | refl => exact h
  | step h2 ih => exact selectAux_fuel_succ o m _ node acc path ih

theorem selectAux_unique {S : Type} [DecidableEq S] (o : NumOracle) (m : MCTS S)
    (f1 f2 : ℕ) (node : S) (acc p1 p2 : List S)
    (h1 : selectAux o m f1 node acc = .ok p1)
    (h2 : selectAux o m f2 node acc = .ok p2) : p1 = p2 := by
  have e1 := selectAux_fuel_mono o m f1 (max f1 f2) (le_max_left _ _) node acc p1 h1
  have e2 := selectAux_fuel_mono o m f2 (max f1 f2) (le_max_right _ _) node acc p2 h2
  rw [e1] at e2
  exact Except.ok.inj e2

theorem selectAux_intermediate {S : Type} [DecidableEq S] (o : NumOracle) (m : MCTS S) :
    ∀ (fuel : ℕ) (node : S) (acc tail : List S),
      selectAux o m fuel node acc = .ok (acc ++ tail) →
      ∀ (i : ℕ) (hi : i < tail.length),
        (∃ f2, selectAux o m f2 (tail.get ⟨i, hi⟩) (acc ++ tail.take i) = .ok (acc ++ tail)) ∨
        ((m.children (tail.get ⟨i, hi⟩)).isNone = true ∧ i + 1 = tail.length) := by
  intro fuel
  induction fuel with
  | zero => intro node acc tail h; rw [selectAux_zero] at h; cases h
  | succ f ih =>
    intro node acc tail h
    cases hc : m.children node with
    | none =>
      have h2 := h
      rw [selectAux_unexpanded o m f node acc hc] at h2
      have htail : tail = [node] := (List.append_cancel_left (Except.ok.inj h2)).symm
      subst htail
      intro i hi
      have hi0 : i = 0 := by simp at hi; omega
      subst hi0
      left
      exact ⟨f + 1, by simpa using h⟩
    | some cs =>
      cases he : cs.isEmpty with
      | true =>
        have h2 := h
        rw [selectAux_terminal o m f node acc cs hc he] at h2
        have htail : tail = [node] := (List.append_cancel_left (Except.ok.inj h2)).symm
        subst htail
        intro i hi
        have hi0 : i = 0 := by simp at hi; omega
        subst hi0
        left
        exact ⟨f + 1, by simpa using h⟩
      | false =>
        cases hf : cs.filter (fun c => (m.children c).isNone) with
        | cons u rest =>
          have h2 := h
          rw [selectAux_frontier o m f node acc cs u rest hc he hf] at h2
          have htail : tail = [node, u] := (List.append_cancel_left (Except.ok.inj h2)).symm
          subst htail
          intro i hi
          have hi01 : i = 0 ∨ i = 1 := by simp at hi; omega
          rcases hi01 with hi0 | hi0 <;> subst hi0
          · left
            exact ⟨f + 1, by simpa using h⟩
          · right
            refine ⟨?_, rfl⟩
            have hu : u ∈ cs.filter (fun c => (m.children c).isNone) := by
              rw [hf]; exact List.mem_cons_self _ _
            exact (List.mem_filter.mp hu).2
        | nil =>
          cases hu : _uct_select o m node with
          | error e =>
            rw [selectAux_uct_err o m f node acc cs e hc he hf hu] at h
            cases h
          | ok n =>
            have h2 := h
            rw [selectAux_uct_ok o m f node acc cs n hc he hf hu] at h2
            obtain ⟨tail2, hp, hgen⟩ := selectAux_shift o m f n (acc ++ [node]) (acc ++ tail) h2
            have htail : tail = node :: tail2 := by
              rw [List.append_assoc] at hp
              simpa using List.append_cancel_left hp
            subst htail
            intro i hi
            cases i with
            | zero =>
              left
              exact ⟨f + 1, by simpa using h⟩
            | succ i' =>
              have hi' : i' < tail2.length := by simp at hi; omega
              have hrec : selectAux o m f n (acc ++ [node]) = .ok ((acc ++ [node]) ++ tail2) := by
                rw [h2]
                simp
              rcases ih n (acc ++ [node]) tail2 hrec i' hi' with ⟨f2, hsel⟩ | ⟨hnone, hlen⟩
              · left
                refine ⟨f2, ?_⟩
                show selectAux o m f2 (tail2.get ⟨i', hi'⟩) (acc ++ node :: tail2.take i') =
                  .ok (acc ++ node :: tail2)
                have e1 : (acc ++ [node]) ++ tail2.take i' = acc ++ node :: tail2.take i' := by
                  simp
                have e2 : (acc ++ [node]) ++ tail2 = acc ++ node :: tail2 := by simp
                rw [e1, e2] at hsel
                exact hsel
              · right
                refine ⟨?_, ?_⟩
                · exact hnone
                · simp
                  omega

theorem selectAux_ok_nodup {S : Type} [DecidableEq S] (o : NumOracle) (m : MCTS S)
    (fuel : ℕ) (node : S) (acc tail : List S)
    (h : selectAux o m fuel node acc = .ok (acc ++ tail)) : tail.Nodup := by
  have core : ∀ (i j : ℕ) (hi : i < tail.length) (hj : j < tail.length), i < j →
      tail.get ⟨i, hi⟩ = tail.get ⟨j, hj⟩ → False := by
    intro i j hi hj hij hget
    rcases selectAux_intermediate o m fuel node acc tail h i hi with ⟨fi, hseli⟩ | ⟨_, hilen⟩
    · rcases selectAux_intermediate o m fuel node acc tail h j hj with
        ⟨fj, hselj⟩ | ⟨hjnone, hjlen⟩
      · obtain ⟨t1, hp1, hgen1⟩ := selectAux_shift o m fi _ _ _ hseli
        obtain ⟨t2, hp2, hgen2⟩ := selectAux_shift o m fj _ _ _ hselj
        have hx := hgen1 []
        have hy := hgen2 []
        rw [hget] at hx
        have ht12 : t1 = t2 := by
          simpa using selectAux_unique o m fi fj (tail.get ⟨j, hj⟩) [] _ _ hx hy
        have hlen1 : tail.length = i + t1.length := by
          have hl := congrArg List.length hp1
          simp [List.length_take] at hl
          omega
        have hlen2 : tail.length = j + t2.length := by
          have hl := congrArg List.length hp2
          simp [List.length_take] at hl
          omega
        rw [ht12] at hlen1
        omega
      · rw [hget] at hseli
        cases fi with
        | zero => rw [selectAux_zero] at hseli; cases hseli
        | succ fi' =>
          have hnone : m.children (tail.get ⟨j, hj⟩) = none :=
            Option.isNone_iff_eq_none.mp hjnone
          rw [selectAux_unexpanded o m fi' _ _ hnone] at hseli
          have hl := congrArg List.length (Except.ok.inj hseli)
          simp [List.length_take] at hl
          omega
    · omega
  rw [List.nodup_iff_injective_get]
  intro a b hab
  by_contra hne
  rcases Nat.lt_trichotomy a.val b.val with hlt | heq | hgt
  · exact core a.val b.val a.isLt b.isLt hlt hab
  · exact hne (Fin.ext heq)
  · exact core b.val a.val b.isLt a.isLt hgt hab.symm

theorem select_path_nodup {S : Type} [DecidableEq S] (o : NumOracle) (m : MCTS S)
    (node : S) (fuel : ℕ) (path : List S)
    (h : _select o m node fuel = .ok path) : path.Nodup := by
  rw [_select] at h
  have h2 : selectAux o m fuel node [] = .ok ([] ++ path) := by simpa using h
  exact selectAux_ok_nodup o m fuel node [] path h2

/-! ## Rollout decomposition and engine invariants -/

theorem rolloutTrace_ok {S : Type} [DecidableEq S] (g : Game S) (o : NumOracle) (m : MCTS S)
    (node : S) (f1 f2 : ℕ) (m' : MCTS S) (path : List S) (r : ℚ)
    (h : rolloutTrace g o m node f1 f2 = .ok (m', path, r)) :
    _select o m node f1 = .ok path ∧
      ∃ leaf, path.getLast? = some leaf ∧ _simulate g f2 leaf = some r ∧
        m' = _backpropagate (_expand g m leaf) path r := by
  rw [rolloutTrace] at h
  split at h
  · cases h
  next p hs =>
    split at h
    · cases h
    next leaf hl =>
      split at h
      · cases h
      next rr hsim =>
        rw [Except.ok.injEq, Prod.mk.injEq, Prod.mk.injEq] at h
        obtain ⟨hm, hp, hr⟩ := h
        subst hp; subst hr; subst hm
        exact ⟨hs, leaf, hl, hsim, rfl⟩

theorem do_rollout_ok {S : Type} [DecidableEq S] (g : Game S) (o : NumOracle) (m : MCTS S)
    (node : S) (f1 f2 : ℕ) (m' : MCTS S)
    (h : do_rollout g o m node f1 f2 = .ok m') :
    ∃ path r, rolloutTrace g o m node f1 f2 = .ok (m', path, r) := by
  rw [do_rollout] at h
  cases ht : rolloutTrace g o m node f1 f2 with
  | error e => rw [ht] at h; cases h
  | ok t =>
    rw [ht] at h
    obtain ⟨m2, path, r⟩ := t
    simp [Except.map] at h
    subst h
    exact ⟨path, r, rfl⟩

theorem keysVisited_init {S : Type} (c : ℚ) : keysVisited (MCTS.init c : MCTS S) := by
  intro s h
  simp [MCTS.init] at h

theorem keysVisited_rollout {S : Type} [DecidableEq S] (g : Game S) (o : NumOracle)
    (m m' : MCTS S) (root : S) (f1 f2 : ℕ)
    (h : do_rollout g o m root f1 f2 = .ok m') (hk : keysVisited m) : keysVisited m' := by
  obtain ⟨path, r, ht⟩ := do_rollout_ok g o m root f1 f2 m' h
  obtain ⟨hsel, leaf, hl, hsim, hm'⟩ := rolloutTrace_ok g o m root f1 f2 m' path r ht
  subst hm'
  intro s hs
  rw [backprop_children] at hs
  rw [backprop_N, _expand_N]
  rcases _expand_children_isSome g m leaf s hs with h1 | h1
  · have := hk s h1
    omega
  · subst h1
    have hmem : s ∈ path := List.mem_of_mem_getLast? hl
    have hcount : 0 < path.count s := List.count_pos_iff.mpr hmem
    omega

theorem reachable_keysVisited {S : Type} [DecidableEq S] (g : Game S) (o : NumOracle)
    (c : ℚ) (m : MCTS S) (h : Reachable g o c m) : keysVisited m := by
  induction h with
  | init => exact keysVisited_init c
  | step hr hstep ih => exact keysVisited_rollout _ _ _ _ _ _ _ hstep ih

theorem runRollouts_accounting {S : Type} [DecidableEq S] (g : Game S) (o : NumOracle) :
    ∀ (seq : List (S × ℕ × ℕ)) (m0 mf : MCTS S) (traces : List (List S × ℚ)),
      runRollouts g o m0 seq = .ok (mf, traces) →
      (∀ s, mf.N s = m0.N s + ((traces.map (fun t => t.1.count s)).sum)) ∧
      (∀ s, mf.Q s = m0.Q s + ((traces.map (fun t => recordedReward t.1 t.2 s)).sum)) ∧
      (∀ t ∈ traces, ∃ (m1 : MCTS S) (root : S) (f : ℕ), _select o m1 root f = .ok t.1) := by
  intro seq
  induction seq with
  | nil =>
    intro m0 mf traces h
    rw [runRollouts] at h
    rw [Except.ok.injEq, Prod.mk.injEq] at h
    obtain ⟨hm, ht⟩ := h
    subst hm; subst ht
    refine ⟨fun s => by simp, fun s => by simp, by simp⟩
  | cons step rest ih =>
    intro m0 mf traces h
    obtain ⟨root, f1, f2⟩ := step
    rw [runRollouts] at h
    split at h
    · cases h
    next m2 path r ht =>
      split at h
      · cases h
      next mf2 traces2 hr =>
        rw [Except.ok.injEq, Prod.mk.injEq] at h
        obtain ⟨hm, htr⟩ := h
        subst hm; subst htr
        obtain ⟨hsel, leaf, hl, hsim, hm2⟩ := rolloutTrace_ok g o m0 root f1 f2 m2 path r ht
        obtain ⟨ihN, ihQ, ihsel⟩ := ih m2 mf2 traces2 hr
        refine ⟨?_, ?_, ?_⟩
        · intro s
          rw [ihN s, hm2, backprop_N, _expand_N]
          simp only [List.map_cons, List.sum_cons]
          omega
        · intro s
          rw [ihQ s, hm2, backprop_Q, _expand_Q]
          simp only [List.map_cons, List.sum_cons]
          ring
        · intro t htm
          rcases List.mem_cons.mp htm with h1 | h1
          · subst h1
            exact ⟨m0, root, f1, hsel⟩
          · exact ihsel t h1

/-! ## Tic-tac-toe lemmas -/

theorem setSlice_cons {α : Type} (l : List α) (i : ℕ) (a : α) :
    l.take i ++ [a] ++ l.drop (i + 1) = l.take i ++ a :: l.drop (i + 1) := by
  simp

theorem length_take_of_lt {α : Type} (l : List α) (i : ℕ) (hi : i < l.length) :
    (l.take i).length = i := by
  simp [List.length_take]
  omega

theorem length_setSlice {α : Type} (l : List α) (i : ℕ) (a : α) (hi : i < l.length) :
    (l.take i ++ [a] ++ l.drop (i + 1)).length = l.length := by
  simp [List.length_take, List.length_drop]
  omega

theorem setSlice_getElem_eq {α : Type} (l : List α) (i : ℕ) (a : α) (hi : i < l.length) :
    (l.take i ++ [a] ++ l.drop (i + 1))[i]? = some a := by
  rw [setSlice_cons]
  rw [List.getElem?_append_right (by rw [length_take_of_lt l i hi])]
  rw [length_take_of_lt l i hi]
  simp

theorem setSlice_getElem_ne {α : Type} (l : List α) (i j : ℕ) (a : α) (hi : i < l.length)
    (hne : j ≠ i) : (l.take i ++ [a] ++ l.drop (i + 1))[j]? = l[j]? := by
  rw [setSlice_cons]
  rcases Nat.lt_or_ge j i with hj | hj
  · rw [List.getElem?_append_left (by rw [length_take_of_lt l i hi]; exact hj)]
    exact List.getElem?_take_of_lt hj
  · have hj2 : i < j := by omega
    rw [List.getElem?_append_right (by rw [length_take_of_lt l i hi]; omega)]
    rw [length_take_of_lt l i hi]
    have hsub : j - i = (j - i - 1) + 1 := by omega
    rw [hsub, List.getElem?_cons_succ, List.getElem?_drop]
    congr 1
    omega

theorem decomp_setSlice {α : Type} (l : List α) (i : ℕ) (v : α) (hv : l[i]? = some v) :
    l = l.take i ++ [v] ++ l.drop (i + 1) := by
  conv_lhs => rw [← List.take_append_drop (i + 1) l]
  rw [List.take_succ, hv]
  simp

theorem countP_setSlice {α : Type} (l : List α) (i : ℕ) (a v : α) (p : α → Bool)
    (hv : l[i]? = some v) :
    (l.take i ++ [a] ++ l.drop (i + 1)).countP p + (if p v then 1 else 0) =
      l.countP p + (if p a then 1 else 0) := by
  have h1 : (l.take i ++ [a] ++ l.drop (i + 1)).countP p =
      (l.take i).countP p + (if p a then 1 else 0) + (l.drop (i + 1)).countP p := by
    rw [List.countP_append, List.countP_append]
    have : ([a] : List α).countP p = if p a then 1 else 0 := by
      rw [List.countP_cons]
      simp [List.countP_nil]
    omega
  have h2 : l.countP p =
      (l.take i).countP p + (if p v then 1 else 0) + (l.drop (i + 1)).countP p := by
    conv_lhs => rw [decomp_setSlice l i v hv]
    rw [List.countP_append, List.countP_append]
    have : ([v] : List α).countP p = if p v then 1 else 0 := by
      rw [List.countP_cons]
      simp [List.countP_nil]
    omega
  omega

theorem comboWinner_iff (tup : List (Option Bool)) (c : ℕ × ℕ × ℕ) (w : Bool) :
    comboWinner tup c = some w ↔
      tup[c.1]? = some (some w) ∧ tup[c.2.1]? = some (some w) ∧
        tup[c.2.2]? = some (some w) := by
  constructor
  · intro h
    rw [comboWinner] at h
    split at h
    next hcond =>
      injection h with hw
      subst hw
      simp only [Bool.and_eq_true, beq_iff_eq] at hcond
      exact ⟨hcond.1.1, hcond.1.2, hcond.2⟩
    next =>
      split at h
      next hcond =>
        injection h with hw
        subst hw
        simp only [Bool.and_eq_true, beq_iff_eq] at hcond
        exact ⟨hcond.1.1, hcond.1.2, hcond.2⟩
      next => cases h
  · rintro ⟨h1, h2, h3⟩
    rw [comboWinner, h1, h2, h3]
    cases w <;> simp

theorem findWinnerAux_some (tup : List (Option Bool)) :
    ∀ (combos : List (ℕ × ℕ × ℕ)) (w : Bool), findWinnerAux tup combos = some w →
      ∃ c ∈ combos, comboWinner tup c = some w := by
  intro combos
  induction combos with
  | nil => intro w h; cases h
  | cons c rest ih =>
    intro w h
    rw [findWinnerAux] at h
    cases hc : comboWinner tup c with
    | some w2 =>
      rw [hc] at h
      injection h with hw
      subst hw
      exact ⟨c, List.mem_cons_self _ _, hc⟩
    | none =>
      rw [hc] at h
      obtain ⟨c2, hmem, hw⟩ := ih w h
      exact ⟨c2, List.mem_cons_of_mem _ hmem, hw⟩

theorem findWinnerAux_none (tup : List (Option Bool)) :
    ∀ (combos : List (ℕ × ℕ × ℕ)), findWinnerAux tup combos = none ↔
      ∀ c ∈ combos, comboWinner tup c = none := by
  intro combos
  induction combos with
  | nil => simp [findWinnerAux]
  | cons c rest ih =>
    rw [findWinnerAux]
    cases hc : comboWinner tup c with
    | some w2 =>
      simp only [hc]
      constructor
      · intro h; cases h
      · intro h
        have := h c (List.mem_cons_self _ _)
        rw [hc] at this
        cases this
    | none =>
      simp only [hc]
      rw [ih]
      constructor
      · intro h c2 hc2
        rcases List.mem_cons.mp hc2 with h1 | h1
        · subst h1; exact hc
        · exact h c2 h1
      · intro h c2 hc2
        exact h c2 (List.mem_cons_of_mem _ hc2)

theorem find_winner_new (tup : List (Option Bool)) (i : ℕ) (t : Bool) (hi : i < tup.length)
    (h0 : _find_winner tup = none) (w : Bool)
    (hw : _find_winner (tup.take i ++ [some t] ++ tup.drop (i + 1)) = some w) : w = t := by
  by_contra hne
  rw [_find_winner] at h0 hw
  obtain ⟨c, hc, hcw⟩ := findWinnerAux_some _ _ w hw
  rw [comboWinner_iff] at hcw
  obtain ⟨h1, h2, h3⟩ := hcw
  have conv : ∀ j : ℕ, (tup.take i ++ [some t] ++ tup.drop (i + 1))[j]? = some (some w) →
      tup[j]? = some (some w) := by
    intro j hj
    by_cases hji : j = i
    · subst hji
      rw [setSlice_getElem_eq tup j (some t) hi] at hj
      injection hj with hj2
      injection hj2 with hj3
      exact absurd hj3.symm hne
    · rw [setSlice_getElem_ne tup i j (some t) hi hji] at hj
      exact hj
  have hcw2 : comboWinner tup c = some w :=
    (comboWinner_iff tup c w).mpr ⟨conv _ h1, conv _ h2, conv _ h3⟩
  have hnone := (findWinnerAux_none tup winning_combos).mp h0 c hc
  rw [hcw2] at hnone
  cases hnone

theorem boardInv_init : BoardInv new_tic_tac_toe_board := by
  unfold BoardInv
  decide

theorem boardInv_move (b : TicTacToeBoard) (i : ℕ) (hInv : BoardInv b)
    (ht : b.terminal = false) (hi : b.tup[i]? = some none) :
    BoardInv (b.make_move i) := by
  obtain ⟨hlen, hwin, hterm, hpar, hwt⟩ := hInv
  have hilen : i < b.tup.length := (List.getElem?_eq_some.mp hi).choose
  have hwnone : b.winner = none := by
    cases hw : b.winner with
    | none => rfl
    | some w =>
      rw [hw] at hterm
      simp at hterm
      rw [hterm] at ht
      cases ht
  have hfw : _find_winner b.tup = none := by rw [← hwin, hwnone]
  have hcount : (b.tup.take i ++ [some b.turn] ++ b.tup.drop (i + 1)).countP
        (fun v => v.isNone) + 1 = b.tup.countP (fun v => v.isNone) :=
    countP_setSlice b.tup i (some b.turn) none (fun v => v.isNone) hi
  refine ⟨?_, rfl, rfl, ?_, ?_⟩
  · show (b.tup.take i ++ [some b.turn] ++ b.tup.drop (i + 1)).length = 9
    rw [length_setSlice b.tup i (some b.turn) hilen]
    exact hlen
  · show (!b.turn) = true ↔
      (b.tup.take i ++ [some b.turn] ++ b.tup.drop (i + 1)).countP (fun v => v.isNone) % 2 = 1
    constructor
    · intro hturn
      have hb : b.turn = false := by
        cases hbt : b.turn
        · rfl
        · rw [hbt] at hturn; cases hturn
      have hodd : ¬ b.tup.countP (fun v => v.isNone) % 2 = 1 := by
        intro hc
        have := hpar.mpr hc
        rw [this] at hb
        cases hb
      omega
    · intro hc
      cases hbt : b.turn
      · rfl
      · exfalso
        have := hpar.mp hbt
        omega
  · intro w hw
    show (!b.turn) = !w
    have hwt2 : w = b.turn :=
      find_winner_new b.tup i b.turn hilen hfw w hw
    rw [hwt2]

theorem legalReachable_inv (b : TicTacToeBoard) (h : LegalReachable b) : BoardInv b := by
  induction h with
  | init => exact boardInv_init
  | move hr ht hi ih => exact boardInv_move _ _ ih ht hi

/-! ## Remaining supporting lemmas for the claims -/

theorem sum_count_eq_filter_length {S : Type} [DecidableEq S] (s : S) :
    ∀ (traces : List (List S × ℚ)), (∀ t ∈ traces, t.1.Nodup) →
      ((traces.map (fun t => t.1.count s)).sum) =
        (traces.filter (fun t => decide (s ∈ t.1))).length := by
  intro traces
  induction traces with
  | nil => intro _; rfl
  | cons t rest ih =>
    intro hnd
    have hrest := ih (fun t2 h2 => hnd t2 (List.mem_cons_of_mem _ h2))
    simp only [List.map_cons, List.sum_cons, List.filter_cons]
    by_cases hmem : s ∈ t.1
    · rw [List.count_eq_one_of_mem (hnd t (List.mem_cons_self _ _)) hmem]
      simp [hmem, hrest]
      omega
    · rw [List.count_eq_zero_of_not_mem hmem]
      simp [hmem, hrest]

theorem runRollouts_QN_bound {S : Type} [DecidableEq S] (g : Game S) (o : NumOracle)
    (HR : ∀ s, g.is_terminal s = true → 0 ≤ g.reward s ∧ g.reward s ≤ 1) :
    ∀ (seq : List (S × ℕ × ℕ)) (m0 mf : MCTS S) (traces : List (List S × ℚ)),
      runRollouts g o m0 seq = .ok (mf, traces) →
      (∀ s, 0 ≤ m0.Q s ∧ m0.Q s ≤ (m0.N s : ℚ)) →
      ∀ s, 0 ≤ mf.Q s ∧ mf.Q s ≤ (mf.N s : ℚ) := by
  intro seq
  induction seq with
  | nil =>
    intro m0 mf traces h hInv
    rw [runRollouts] at h
    rw [Except.ok.injEq, Prod.mk.injEq] at h
    obtain ⟨hm, ht⟩ := h
    subst hm
    exact hInv
  | cons step rest ih =>
    intro m0 mf traces h hInv
    obtain ⟨root, f1, f2⟩ := step
    rw [runRollouts] at h
    split at h
    · cases h
    next m2 path r htr =>
      split at h
      · cases h
      next mf2 traces2 hr =>
        rw [Except.ok.injEq, Prod.mk.injEq] at h
        obtain ⟨hm, htr2⟩ := h
        subst hm
        obtain ⟨hsel, leaf, hl, hsim, hm2⟩ := rolloutTrace_ok g o m0 root f1 f2 m2 path r htr
        have hsim2 : simulateAux g f2 true leaf = some r := hsim
        have hrb := simulateAux_bounds g HR f2 true leaf r hsim2
        refine ih m2 mf2 traces2 hr ?_
        intro s
        rw [hm2, backprop_Q, backprop_N, _expand_Q, _expand_N]
        have hqd := qDelta_bounds path.reverse r s hrb.1 hrb.2
        rw [List.count_reverse] at hqd
        obtain ⟨h0, h1⟩ := hInv s
        rw [recordedReward]
        constructor
        · linarith [hqd.1]
        · push_cast
          linarith [hqd.2]

/-! ## Claim theorems -/

/-- C1, counterexample to the claim as stated: the claim predicts that the
reward of a leaf that is already terminal (zero advances, an even ply
count) is returned unchanged, but _simulate starts with invert_reward True
and returns 1 - reward: on the terminal witness state b with reward 0 the
returned value is 1, not 0. -/
theorem c1_counterexample :
    stepsToTerminal wg 0 WS.b = some (0, WS.b) ∧ wg.reward WS.b = 0 ∧
      _simulate wg 1 WS.b = some 1 ∧ _simulate wg 1 WS.b ≠ some (wg.reward WS.b) := by
  have hval : _simulate wg 1 WS.b = some ((1 : ℚ) - 0) := rfl
  refine ⟨by decide, rfl, ?_, ?_⟩
  · rw [hval]
    norm_num
  · rw [hval]
    intro h
    have h2 : (1 : ℚ) - 0 = 0 := Option.some.inj h
    norm_num at h2

/-- C1 (amended): _simulate performs the random walk to the first terminal
state and returns its reward inverted as 1 - reward exactly when the
number of advances from the leaf is even (in particular when the leaf
itself is terminal), unchanged when that number is odd. -/
theorem c1_simulate_flip_parity {S : Type} (g : Game S) (fuel k : ℕ) (s t : S)
    (h : stepsToTerminal g fuel s = some (k, t)) :
    _simulate g (fuel + 1) s =
      some (if k % 2 = 0 then 1 - g.reward t else g.reward t) := by
  rw [_simulate, simulateAux_steps g fuel s k t h true]
  by_cases hk : k % 2 = 0
  · simp [hk]
  · simp [hk]

/-- C1 witness: on the witness game the walk from the root reaches the
terminal state a after one advance (odd), so the reward is returned
unchanged. -/
theorem c1_simulate_flip_parity_witness :
    stepsToTerminal wg 3 WS.root = some (1, WS.a) ∧
      _simulate wg 4 WS.root = some (if 1 % 2 = 0 then 1 - wg.reward WS.a else wg.reward WS.a) :=
  ⟨by decide, c1_simulate_flip_parity wg 3 1 WS.root WS.a (by decide)⟩

/-- C2: backpropagation along a path produced by selection walks the path
in reverse, adds exactly one visit at every path node, and adds the reward
flipped once per step from the leaf: the node at distance d from the leaf
receives r when d is even and 1 - r when d is odd; for a path of length 3
the increments are r at the leaf, 1 - r at the middle node, and r at the
root. -/
theorem c2_backprop_flip {S : Type} [DecidableEq S] (o : NumOracle) (msel : MCTS S)
    (root : S) (fuel : ℕ) (p : List S) (hsel : _select o msel root fuel = .ok p)
    (m : MCTS S) (r : ℚ) (i : ℕ) (hi : i < p.length) :
    (_backpropagate m p r).N (p.get ⟨i, hi⟩) = m.N (p.get ⟨i, hi⟩) + 1 ∧
    (_backpropagate m p r).Q (p.get ⟨i, hi⟩) =
      m.Q (p.get ⟨i, hi⟩) + (if (p.length - 1 - i) % 2 = 0 then r else 1 - r) := by
  have hnd := select_path_nodup o msel root fuel p hsel
  constructor
  · rw [backprop_N, List.count_eq_one_of_mem hnd (p.get_mem _ _)]
  · rw [backprop_Q, recordedReward]
    have hj : p.length - 1 - i < p.reverse.length := by simp; omega
    have hrevnd : p.reverse.Nodup := List.nodup_reverse.mpr hnd
    have hget : p.reverse.get ⟨p.length - 1 - i, hj⟩ = p.get ⟨i, hi⟩ := by
      rw [List.get_reverse' p ⟨p.length - 1 - i, hj⟩ (by simp at hj ⊢; omega)]
      congr 1
      apply Fin.ext
      show p.length - 1 - (p.length - 1 - i) = i
      omega
    rw [← hget, qDelta_get p.reverse r (p.length - 1 - i) hj hrevnd]

/-- C2 witness: on the chain game the third rollout selects the length
three path from the root through the middle node to the leaf, and
backpropagating reward 1/4 along it from a fresh engine adds one visit
everywhere, 1/4 at the leaf, 1 - 1/4 at the middle node, and 1/4 at the
root. -/
theorem c2_backprop_flip_witness :
    _select wo wc2 WC.r0 9 = .ok [WC.r0, WC.mid, WC.leaf] ∧
    (_backpropagate wc0 [WC.r0, WC.mid, WC.leaf] (1/4)).N WC.leaf = wc0.N WC.leaf + 1 ∧
    (_backpropagate wc0 [WC.r0, WC.mid, WC.leaf] (1/4)).Q WC.leaf = wc0.Q WC.leaf + 1/4 ∧
    (_backpropagate wc0 [WC.r0, WC.mid, WC.leaf] (1/4)).Q WC.mid = wc0.Q WC.mid + (1 - 1/4) ∧
    (_backpropagate wc0 [WC.r0, WC.mid, WC.leaf] (1/4)).Q WC.r0 = wc0.Q WC.r0 + 1/4 := by
  have hsel : _select wo wc2 WC.r0 9 = .ok [WC.r0, WC.mid, WC.leaf] := rfl
  refine ⟨hsel, ?_, ?_, ?_, ?_⟩
  · exact (c2_backprop_flip wo wc2 WC.r0 9 _ hsel wc0 (1/4) 2 (by decide)).1
  · have h := (c2_backprop_flip wo wc2 WC.r0 9 _ hsel wc0 (1/4) 2 (by decide)).2
    simpa using h
  · have h := (c2_backprop_flip wo wc2 WC.r0 9 _ hsel wc0 (1/4) 1 (by decide)).2
    simpa using h
  · have h := (c2_backprop_flip wo wc2 WC.r0 9 _ hsel wc0 (1/4) 0 (by decide)).2
    simpa using h

/-- C3: choose on a non-terminal node registered in the children dict with
a nonempty child list returns a registered child maximizing the
average-reward score, where an unvisited child scores bottom; whenever
some child has a positive visit count, the returned child has a positive
visit count. -/
theorem c3_choose_maximizes_avg {S : Type} [DecidableEq S] (g : Game S) (m : MCTS S)
    (node : S) (cs : List S) (hterm : g.is_terminal node = false)
    (hreg : m.children node = some cs) (hne : cs ≠ []) :
    ∃ c, choose g m node = .ok (some c) ∧ c ∈ cs ∧
      (∀ d ∈ cs, score m d ≤ score m c) ∧
      ((∃ d ∈ cs, 0 < m.N d) → 0 < m.N c) := by
  cases cs with
  | nil => exact absurd rfl hne
  | cons x xs =>
    cases hp : pyMax (score m) (x :: xs) with
    | none => rw [pyMax] at hp; cases hp
    | some c =>
      refine ⟨c, ?_, pyMax_mem _ _ _ hp, pyMax_le _ _ _ hp, ?_⟩
      · simp [choose, hterm, hreg, hp]
      · rintro ⟨d, hd, hdN⟩
        by_contra hc0
        have hc0' : m.N c = 0 := by omega
        have hscd : score m c = ⊥ := by rw [score, if_pos hc0']
        have hsd : (⊥ : WithBot ℚ) < score m d := by
          rw [score, if_neg (by omega)]
          exact WithBot.bot_lt_coe _
        have hle := pyMax_le _ _ _ hp d hd
        rw [hscd] at hle
        exact absurd (lt_of_lt_of_le hsd hle) (lt_irrefl _)

/-- C3 witness: after three rollouts the witness root is registered with
children a and b, both visited, and choose picks a visited maximizer. -/
theorem c3_choose_maximizes_avg_witness :
    wg.is_terminal WS.root = false ∧ wm3.children WS.root = some [WS.a, WS.b] ∧
      (∃ d ∈ [WS.a, WS.b], 0 < wm3.N d) ∧
      (∃ c, choose wg wm3 WS.root = .ok (some c) ∧ c ∈ [WS.a, WS.b] ∧
        (∀ d ∈ [WS.a, WS.b], score wm3 d ≤ score wm3 c) ∧
        ((∃ d ∈ [WS.a, WS.b], 0 < wm3.N d) → 0 < wm3.N c)) :=
  ⟨rfl, by decide, ⟨WS.a, by decide, by decide⟩,
    c3_choose_maximizes_avg wg wm3 WS.root [WS.a, WS.b] rfl (by decide) (by decide)⟩

/-- C4: when the current node has registered children and at least one of
them is missing from the children dict, _select appends that unexplored
child to the path and stops without consulting _uct_select; and no
selectAux run ever returns the assertion failure of _uct_select, which is
only reached with every registered child expanded. -/
theorem c4_frontier_before_uct {S : Type} [DecidableEq S] (o : NumOracle) :
    (∀ (m : MCTS S) (fuel : ℕ) (node : S) (acc : List S) (cs : List S) (u : S) (rest : List S),
        m.children node = some cs → cs.isEmpty = false →
        cs.filter (fun c => (m.children c).isNone) = u :: rest →
        selectAux o m (fuel + 1) node acc = .ok (acc ++ [node, u])) ∧
    (∀ (m : MCTS S) (fuel : ℕ) (node : S) (acc : List S),
        selectAux o m fuel node acc ≠ .error .assertFail) :=
  ⟨fun m fuel node acc cs u rest hc he hf =>
      selectAux_frontier o m fuel node acc cs u rest hc he hf,
    fun m fuel node acc => selectAux_no_assert o m fuel node acc⟩

/-- C4 witness: after one rollout the witness root has the unexplored
children a and b, and selection stops at a without any uct call. -/
theorem c4_frontier_before_uct_witness :
    wm1.children WS.root = some [WS.a, WS.b] ∧
      ([WS.a, WS.b] : List WS).isEmpty = false ∧
      ([WS.a, WS.b].filter (fun c => (wm1.children c).isNone)) = [WS.a, WS.b] ∧
      selectAux wo wm1 9 WS.root [] = .ok ([] ++ [WS.root, WS.a]) ∧
      selectAux wo wm0 5 WS.root [] ≠ .error .assertFail := by
  refine ⟨by decide, rfl, by decide, ?_, ?_⟩
  · exact (c4_frontier_before_uct wo).1 wm1 8 WS.root [] [WS.a, WS.b] WS.a [WS.b]
      (by decide) rfl (by decide)
  · exact (c4_frontier_before_uct wo).2 wm0 5 WS.root []

/-- C5: in every engine state reachable by complete do_rollout calls from
a fresh engine, whenever _uct_select would be invoked (a node registered
in the children dict whose unexplored frontier is empty) the node has at
least one visit and so does every registered child, and _uct_select cannot
return the log-domain or division-by-zero errors. -/
theorem c5_uct_preconditions {S : Type} [DecidableEq S] (g : Game S) (o : NumOracle)
    (c : ℚ) (m : MCTS S) (node : S) (cs : List S) (hreach : Reachable g o c m)
    (hc : m.children node = some cs)
    (hf : cs.filter (fun c2 => (m.children c2).isNone) = []) :
    1 ≤ m.N node ∧ (∀ n ∈ cs, 1 ≤ m.N n) ∧
      _uct_select o m node ≠ .error .logDomain ∧
      _uct_select o m node ≠ .error .divByZero := by
  have hk := reachable_keysVisited g o c m hreach
  have hall := all_isSome_of_filter_isNone_nil m cs hf
  have hN : 1 ≤ m.N node := hk node (by rw [hc]; rfl)
  have hchild : ∀ n ∈ cs, 1 ≤ m.N n := fun n hn =>
    hk n (List.all_eq_true.mp hall n hn)
  refine ⟨hN, hchild, ?_, ?_⟩
  · intro he
    cases uct_errors_with_visits o m node cs hc hall hN hchild _ he
  · intro he
    cases uct_errors_with_visits o m node cs hc hall hN hchild _ he

/-- C5 witness: the state after three rollouts on the witness game is
reachable, the root is fully expanded, and the uct preconditions hold. -/
theorem c5_uct_preconditions_witness :
    wm3.children WS.root = some [WS.a, WS.b] ∧
      ([WS.a, WS.b].filter (fun c2 => (wm3.children c2).isNone)) = [] ∧
      1 ≤ wm3.N WS.root ∧ (∀ n ∈ [WS.a, WS.b], 1 ≤ wm3.N n) ∧
      _uct_select wo wm3 WS.root ≠ .error .logDomain ∧
      _uct_select wo wm3 WS.root ≠ .error .divByZero := by
  have h1 : do_rollout wg wo wm0 WS.root 9 9 = .ok wm1 := rfl
  have h2 : do_rollout wg wo wm1 WS.root 9 9 = .ok wm2 := rfl
  have h3 : do_rollout wg wo wm2 WS.root 9 9 = .ok wm3 := rfl
  have hreach : Reachable wg wo 1 wm3 :=
    Reachable.step (Reachable.step (Reachable.step Reachable.init h1) h2) h3
  have h := c5_uct_preconditions wg wo 1 wm3 WS.root [WS.a, WS.b] hreach (by decide) (by decide)
  exact ⟨by decide, by decide, h.1, h.2.1, h.2.2.1, h.2.2.2⟩

/-- C6: choose raises on a terminal node with no fallback, and on a
non-terminal node that is not a key of the children dict it returns
find_random_child of the node; the source choose performs no writes, so
the engine state is untouched. -/
theorem c6_choose_error_and_fallback {S : Type} [DecidableEq S] (g : Game S) (m : MCTS S)
    (t u : S) :
    (g.is_terminal t = true → choose g m t = .error "choose called on terminal node") ∧
    (g.is_terminal u = false → m.children u = none →
      choose g m u = .ok (g.find_random_child u)) := by
  constructor
  · intro h
    simp [choose, h]
  · intro h hc
    simp [choose, h, hc]

/-- C6 witness: on the witness game choose errors on the terminal state a
and falls back to find_random_child on the never-expanded root. -/
theorem c6_choose_error_and_fallback_witness :
    wg.is_terminal WS.a = true ∧ wg.is_terminal WS.root = false ∧
      wm0.children WS.root = none ∧
      choose wg wm0 WS.a = .error "choose called on terminal node" ∧
      choose wg wm0 WS.root = .ok (wg.find_random_child WS.root) :=
  ⟨rfl, rfl, rfl, (c6_choose_error_and_fallback wg wm0 WS.a WS.root).1 rfl,
    (c6_choose_error_and_fallback wg wm0 WS.a WS.root).2 rfl rfl⟩

/-- C7: after a successful sequence of rollouts from a fresh engine, the
visit count of every state equals the number of rollouts whose selection
path contained it, and its accumulated reward equals the sum of the
per-visit reward values backpropagation recorded for it. -/
theorem c7_statistics_consistency {S : Type} [DecidableEq S] (g : Game S) (o : NumOracle)
    (c : ℚ) (seq : List (S × ℕ × ℕ)) (mf : MCTS S) (traces : List (List S × ℚ))
    (h : runRollouts g o (MCTS.init c) seq = .ok (mf, traces)) (s : S) :
    mf.N s = (traces.filter (fun t => decide (s ∈ t.1))).length ∧
    mf.Q s = ((traces.map (fun t => recordedReward t.1 t.2 s)).sum) := by
  obtain ⟨hN, hQ, hsel⟩ := runRollouts_accounting g o seq (MCTS.init c) mf traces h
  have hnodup : ∀ t ∈ traces, t.1.Nodup := by
    intro t ht2
    obtain ⟨m1, root, f, hs⟩ := hsel t ht2
    exact select_path_nodup o m1 root f t.1 hs
  constructor
  · rw [hN s]
    have h0 : (MCTS.init c : MCTS S).N s = 0 := rfl
    rw [h0, Nat.zero_add, sum_count_eq_filter_length s traces hnodup]
  · rw [hQ s]
    have h0 : (MCTS.init c : MCTS S).Q s = 0 := rfl
    rw [h0, zero_add]

/-- C7 witness: the three traced witness rollouts give the root a visit
count of three, one per rollout containing it, and the matching reward
sum. -/
theorem c7_statistics_consistency_witness :
    runRollouts wg wo (MCTS.init 1) wseq = .ok (wmf, wtraces) ∧
      wmf.N WS.root = (wtraces.filter (fun t => decide (WS.root ∈ t.1))).length ∧
      wmf.Q WS.root = ((wtraces.map (fun t => recordedReward t.1 t.2 WS.root)).sum) := by
  have hrun : runRollouts wg wo (MCTS.init 1) wseq = .ok (wmf, wtraces) := rfl
  exact ⟨hrun, c7_statistics_consistency wg wo 1 wseq wmf wtraces hrun WS.root⟩

/-- C8: if reward lies in the unit interval on every terminal state, then
after any successful sequence of rollouts from a fresh engine every state
with a positive visit count has average reward between 0 and 1. -/
theorem c8_reward_range {S : Type} [DecidableEq S] (g : Game S) (o : NumOracle) (c : ℚ)
    (HR : ∀ s, g.is_terminal s = true → 0 ≤ g.reward s ∧ g.reward s ≤ 1)
    (seq : List (S × ℕ × ℕ)) (mf : MCTS S) (traces : List (List S × ℚ))
    (h : runRollouts g o (MCTS.init c) seq = .ok (mf, traces)) (s : S) (hN : 0 < mf.N s) :
    0 ≤ mf.Q s / (mf.N s : ℚ) ∧ mf.Q s / (mf.N s : ℚ) ≤ 1 := by
  have hQN := runRollouts_QN_bound g o HR seq (MCTS.init c) mf traces h
    (fun s2 => by constructor <;> simp [MCTS.init]) s
  have hpos : (0 : ℚ) < (mf.N s : ℚ) := by exact_mod_cast hN
  exact ⟨div_nonneg hQN.1 (le_of_lt hpos), (div_le_one hpos).mpr hQN.2⟩

/-- C8 witness: the witness game rewards lie in the unit interval and the
root average after three rollouts lies between 0 and 1. -/
theorem c8_reward_range_witness :
    (∀ s : WS, wg.is_terminal s = true → 0 ≤ wg.reward s ∧ wg.reward s ≤ 1) ∧
      runRollouts wg wo (MCTS.init 1) wseq = .ok (wmf, wtraces) ∧ 0 < wmf.N WS.root ∧
      0 ≤ wmf.Q WS.root / (wmf.N WS.root : ℚ) ∧ wmf.Q WS.root / (wmf.N WS.root : ℚ) ≤ 1 := by
  have hHR : ∀ s : WS, wg.is_terminal s = true → 0 ≤ wg.reward s ∧ wg.reward s ≤ 1 := by
    decide
  have hrun : runRollouts wg wo (MCTS.init 1) wseq = .ok (wmf, wtraces) := rfl
  have hN : 0 < wmf.N WS.root := by decide
  exact ⟨hHR, hrun, hN, c8_reward_range wg wo 1 hHR wseq wmf wtraces hrun WS.root hN⟩

/-- C9: _expand on a state already present as a key of the children dict
leaves the engine state unchanged, so the registered children are never
recomputed and find_children is not consulted again. -/
theorem c9_expand_idempotent {S : Type} [DecidableEq S] (g : Game S) (m : MCTS S) (s : S)
    (h : (m.children s).isSome = true) : _expand g m s = m := by
  rw [_expand]
  cases hc : m.children s with
  | none => rw [hc] at h; cases h
  | some cs => rfl

/-- C9 witness: expanding the already-expanded witness root again leaves
the engine untouched. -/
theorem c9_expand_idempotent_witness :
    (wm3.children WS.root).isSome = true ∧ _expand wg wm3 WS.root = wm3 :=
  ⟨by decide, c9_expand_idempotent wg wm3 WS.root (by decide)⟩

/-- C10, counterexample to the claim as stated: make_move checks no
legality, so a sequence of ten make_move calls from the initial board can
overwrite an occupied cell and produce a full drawn board whose player to
move is True; on that board reward returns 0, not 0.5, because the Python
truthiness test turn is (not winner) fires for turn True and winner None. -/
theorem c10_counterexample :
    drawTurnTrueBoard.terminal = true ∧ drawTurnTrueBoard.winner = none ∧
      drawTurnTrueBoard.turn = true ∧
      drawTurnTrueBoard.reward = .ok 0 ∧ drawTurnTrueBoard.reward ≠ .ok (1 / 2) := by
  refine ⟨by decide, by decide, by decide, rfl, ?_⟩
  intro h
  rw [show drawTurnTrueBoard.reward = Except.ok 0 from rfl] at h
  have h2 : (0 : ℚ) = 1 / 2 := Except.ok.inj h
  norm_num at h2

/-- C10 (amended): for every terminal board reachable from the initial
board by legal make_move calls (each on a non-terminal board at an index
holding an empty cell, the only calls the game and the engine issue)
reward returns 0 when the board has a winner and 0.5 when it is a draw;
the winner of such a board is never the player to move, and reward never
returns 1. -/
theorem c10_reward_legal_reachable (b : TicTacToeBoard) (h : LegalReachable b)
    (ht : b.terminal = true) :
    (∀ w, b.winner = some w → b.reward = .ok 0) ∧
    (b.winner = none → b.reward = .ok (1 / 2)) ∧
    b.winner ≠ some b.turn ∧ b.reward ≠ .ok 1 := by
  obtain ⟨hlen, hwin, hterm, hpar, hwt⟩ := legalReachable_inv b h
  have hwinner0 : ∀ w, b.winner = some w → b.reward = .ok 0 := by
    intro w hw
    have htw : b.turn = !w := hwt w hw
    rw [TicTacToeBoard.reward, ht, hw, htw]
    cases w <;> simp [pyNot]
  have hdraw : b.winner = none → b.reward = .ok (1 / 2) := by
    intro hw
    have hbt : b.turn = false := by
      cases hbt2 : b.turn with
      | false => rfl
      | true =>
        exfalso
        rw [hw] at hterm
        rw [ht] at hterm
        simp at hterm
        have hcount0 : b.tup.countP (fun v => v.isNone) = 0 :=
          List.countP_eq_zero.mpr (by
            intro a ha
            simp only [Option.isNone_iff_eq_none]
            exact hterm a ha)
        have := hpar.mp hbt2
        omega
    rw [TicTacToeBoard.reward, ht, hw, hbt]
    simp [pyNot]
  refine ⟨hwinner0, hdraw, ?_, ?_⟩
  · intro he
    have h2 := hwt b.turn he
    exact absurd h2 (by cases b.turn <;> simp)
  · intro h1
    cases hw : b.winner with
    | some w =>
      rw [hwinner0 w hw] at h1
      have h2 : (0 : ℚ) = 1 := Except.ok.inj h1
      norm_num at h2
    | none =>
      rw [hdraw hw] at h1
      have h2 : (1 / 2 : ℚ) = 1 := Except.ok.inj h1
      norm_num at h2

/-- C10 witness: a five-move legal game in which the first player
completes the top row; the resulting terminal board has winner True, and
reward returns 0 and not 1. -/
theorem c10_reward_legal_reachable_witness :
    winBoard.terminal = true ∧ winBoard.winner = some true ∧
      winBoard.reward = .ok 0 ∧ winBoard.reward ≠ .ok 1 := by
  have hreach : LegalReachable winBoard :=
    LegalReachable.move (LegalReachable.move (LegalReachable.move (LegalReachable.move
      (LegalReachable.move LegalReachable.init (by decide) (by decide))
      (by decide) (by decide)) (by decide) (by decide)) (by decide) (by decide))
      (by decide) (by decide)
  have h := c10_reward_legal_reachable winBoard hreach (by decide)
  exact ⟨by decide, by decide, h.1 true (by decide), h.2.2.2⟩
